import Mathlib

/-!
Verification development for the `tx` task-tracker storage engine.

The definitions below are a shallow embedding of the TypeScript storage
layer (`src/storage/interface.ts` with the `BaseStorage` default
implementation and the `PostgresStorage` adapter, `src/storage/sqlite.ts`,
`src/storage/file.ts`), of the schema-evolution helper
`addFieldToSchema` (semantic extraction module), and of the
application-layer delete flow (`server/router.ts` delete mutation and the
CLI `deleteTask`).  JavaScript records become association lists,
JavaScript values become an explicit tagged variant, SQL tables become
lists of rows, and the ambient clock (`new Date()`) becomes an explicit
environment.
-/

namespace Tx

/-- The JavaScript values a `SemanticField` can carry:
`string | string[] | number | boolean | null`.  Numbers are modelled as
integers (the repository only ever stores JSON numbers in these slots). -/
inductive JSValue where
  | vNull : JSValue
  | vBool : Bool → JSValue
  | vNum : Int → JSValue
  | vStr : String → JSValue
  | vArr : List String → JSValue
deriving DecidableEq, Repr

/-- JavaScript truthiness of a `JSValue`: `null`, `false`, `0` and the
empty string are falsy; every array (including `[]`) is truthy. -/
def JSValue.truthy : JSValue → Bool
  | .vNull => false
  | .vBool b => b
  | .vNum n => n != 0
  | .vStr s => s != ""
  | .vArr _ => true

/-- JavaScript `String(v)` coercion: arrays join with a comma,
`null` prints as `"null"`. -/
def JSValue.jsToString : JSValue → String
  | .vNull => "null"
  | .vBool b => if b then "true" else "false"
  | .vNum n => toString n
  | .vStr s => s
  | .vArr xs => String.intercalate "," xs

/-- `String.prototype.startsWith`, embedded on character lists. -/
def strStartsWith (s pre : String) : Bool :=
  pre.toList.isPrefixOf s.toList

/-- Contiguous sublist test on character lists. -/
def listInfix (sub : List Char) : List Char → Bool
  | [] => sub.isEmpty
  | c :: cs => sub.isPrefixOf (c :: cs) || listInfix sub cs

/-- `String.prototype.includes`, embedded on character lists. -/
def strContainsSub (s sub : String) : Bool :=
  listInfix sub.toList s.toList

/-- JavaScript `<` on strings: code-unit lexicographic comparison
(identical to byte comparison on the ASCII data this repository stores,
and to the BINARY collation used by the SQL engines). -/
def strLtL : List Char → List Char → Bool
  | [], [] => false
  | [], _ :: _ => true
  | _ :: _, [] => false
  | a :: as, b :: bs =>
    if a.toNat < b.toNat then true
    else if b.toNat < a.toNat then false
    else strLtL as bs

/-- JavaScript `<` on strings. -/
def jsStrLt (a b : String) : Bool := strLtL a.toList b.toList

/-- JavaScript `<=` / `>=` on strings (total order, no NaN cases). -/
def jsStrLe (a b : String) : Bool := !jsStrLt b a

/-- `deadline.split("T")[0]` — the date part of an ISO timestamp: the
characters before the first `T` (the whole string when no `T` occurs). -/
def getDatePart (s : String) : String :=
  String.mk (s.toList.takeWhile (fun c => c ≠ 'T'))

/-- JavaScript `toLowerCase()` / SQL `LOWER(...)`, character-wise. -/
def lowerStr (s : String) : String :=
  String.mk (s.toList.map Char.toLower)

/-- SQL `LEFT(x, 10)` / `substr(x, 1, 10)`. -/
def take10 (s : String) : String :=
  String.mk (s.toList.take 10)

/-- Stable insertion: place `a` after every element `b` with `le b a`
(equal elements keep their original order, as in JavaScript's stable
`Array.prototype.sort` and a deterministic SQL `ORDER BY`). -/
def stableInsert {α : Type} (le : α → α → Bool) (a : α) : List α → List α
  | [] => [a]
  | b :: l => if le b a then b :: stableInsert le a l else a :: b :: l

/-- Stable sort by a Boolean comparison, used to embed JavaScript's
stable `Array.prototype.sort` and SQL `ORDER BY`. -/
def stableSortBy {α : Type} (le : α → α → Bool) (l : List α) : List α :=
  l.foldl (fun acc a => stableInsert le a acc) []

/-- One extracted semantic field: `name`, a value, an optional
`normalized` canonical form and an optional confidence score. -/
structure SemanticField where
  name : String
  value : JSValue
  normalized : Option String := none
  confidence : Option Int := none
deriving DecidableEq, Repr

/-- The four task statuses. -/
inductive TaskStatus where
  | active : TaskStatus
  | backlog : TaskStatus
  | completed : TaskStatus
  | canceled : TaskStatus
deriving DecidableEq, Repr

/-- The Task record (`src/types/index.ts`).  `completionInfo`,
`canceledInfo` and `recurrence` are opaque JSON payloads for the storage
layer, so they are modelled as uninterpreted strings; the semantic field
map keeps JavaScript object key order as an association list. -/
structure Task where
  id : String
  raw : String
  created : String
  updated : String
  status : TaskStatus
  completed : Bool
  completionInfo : Option String := none
  canceledInfo : Option String := none
  fields : List (String × SemanticField) := []
  blocks : Option (List String) := none
  blockedBy : Option (List String) := none
  parent : Option String := none
  subtasks : Option (List String) := none
  recurrence : Option String := none
  templateId : Option String := none
deriving DecidableEq, Repr

/-- Replace the value stored under a key, or append the pair — the
behaviour of JavaScript object assignment (existing keys keep their
position, new keys go last). -/
def putAssoc {α : Type} (k : String) (v : α) : List (String × α) → List (String × α)
  | [] => [(k, v)]
  | (k', v') :: rest => if k' = k then (k, v) :: rest else (k', v') :: putAssoc k v rest

/-- Remove every pair stored under a key (file deletion / SQL `DELETE
... WHERE`). -/
def eraseKey {α : Type} (x : String) : List (String × α) → List (String × α)
  | [] => []
  | p :: l => if p.1 = x then eraseKey x l else p :: eraseKey x l

/-- The ambient clock.  `today` is `new Date().toISOString().split("T")[0]`,
`weekStart`/`weekEnd` are the ISO dates produced by `getWeekRange`, and
`beforeNow s` is the comparison `new Date(s) < new Date()`. -/
structure TimeEnv where
  today : String
  weekStart : String
  weekEnd : String
  beforeNow : String → Bool

/-- Filter operators of `TaskFilter.op`. -/
inductive FilterOp where
  | eq : FilterOp
  | contains : FilterOp
  | startswith : FilterOp
  | gt : FilterOp
  | lt : FilterOp
  | existsF : FilterOp
  | notExists : FilterOp
deriving DecidableEq, Repr

/-- One `(field, op, value)` filter triple. -/
structure TaskFilter where
  field : String
  op : FilterOp
  value : String
deriving DecidableEq, Repr

/-- A `TaskQuery` request.  Optional JavaScript properties are `Option`s;
`includeCompleted` defaults to the falsy `undefined`. -/
structure TaskQuery where
  filters : Option (List TaskFilter) := none
  groupBy : Option String := none
  sort : Option String := none
  includeCompleted : Bool := false
  status : Option (List TaskStatus) := none
  limit : Option Nat := none
  offset : Option Nat := none

/-- A `TaskQueryResult`. -/
structure TaskQueryResult where
  tasks : List Task
  total : Nat
  grouped : Option (List (String × List Task))

/-- `BaseStorage.isOverdue`: a deadline dated today that carries a time
component is compared against the current instant; otherwise the date
parts are compared as strings. -/
def isOverdue (env : TimeEnv) (deadline : String) : Bool :=
  let deadlineDate := getDatePart deadline
  if deadlineDate = env.today && strContainsSub deadline "T" then
    env.beforeNow deadline
  else
    jsStrLt deadlineDate env.today

/-- `BaseStorage.isThisWeek`: inclusive string comparison of the date part
against the current week's start and end dates. -/
def isThisWeek (env : TimeEnv) (deadline : String) : Bool :=
  let deadlineDate := getDatePart deadline
  jsStrLe env.weekStart deadlineDate && jsStrLe deadlineDate env.weekEnd

/-- `String(field.normalized || field.value)`: the normalized form when it
is truthy (a non-empty string), otherwise the stringified value. -/
def normalizedOrValue (f : SemanticField) : String :=
  match f.normalized with
  | some s => if s = "" then f.value.jsToString else s
  | none => f.value.jsToString

/-- One filter predicate of `BaseStorage.applyFilters`.  The `deadline`
branch returns early for the values `"today"` and `"this_week"`; the
`op = lt, value = "today"` test that follows them in the source can never
fire (the `value === "today"` branch has already returned) and is kept
here exactly as written.  Unmatched deadline filters fall through to the
generic case-folded comparison. -/
def baseFilterMatches (env : TimeEnv) (t : Task) (f : TaskFilter) : Bool :=
  let special : Option Bool :=
    if f.field = "deadline" then
      match (t.fields.lookup "deadline").map (·.value) with
      | none => some false
      | some v =>
        if !v.truthy then some false
        else
          let deadline := v.jsToString
          if f.value = "today" then
            some (if f.op = .eq then getDatePart deadline = env.today else false)
          else if f.value = "this_week" then
            some (isThisWeek env deadline)
          else if f.op = .lt && f.value = "today" then
            some (isOverdue env deadline)
          else
            none
    else none
  match special with
  | some b => b
  | none =>
    if f.field = "completed" then
      t.completed = (f.value = "true")
    else
      match t.fields.lookup f.field with
      | none => f.op = .notExists
      | some fld =>
        if f.op = .existsF then true
        else
          let fieldValue := lowerStr (normalizedOrValue fld)
          let queryValue := lowerStr f.value
          match f.op with
          | .eq => fieldValue = queryValue
          | .contains => strContainsSub fieldValue queryValue
          | .startswith => strStartsWith fieldValue queryValue
          | .gt => jsStrLt queryValue fieldValue
          | .lt => jsStrLt fieldValue queryValue
          | _ => fieldValue = queryValue

/-- `BaseStorage.applyFilters`: AND-combination of all filters. -/
def applyFilters (env : TimeEnv) (tasks : List Task) (filters : List TaskFilter) : List Task :=
  tasks.filter (fun t => filters.all (baseFilterMatches env t))

/-- The sort key of `BaseStorage.applySorting`:
`String(task.fields[sortField]?.value || "")`. -/
def sortKey (sortField : String) (t : Task) : String :=
  match (t.fields.lookup sortField).map (·.value) with
  | none => ""
  | some v => if v.truthy then v.jsToString else ""

/-- `BaseStorage.applySorting`: stable ascending sort by the field's
string value (`localeCompare`, which coincides with code-unit order on
the ASCII data stored here). -/
def applySorting (tasks : List Task) (sortField : String) : List Task :=
  stableSortBy (fun a b => jsStrLe (sortKey sortField a) (sortKey sortField b)) tasks

/-- `BaseStorage.applyGrouping` bucket insertion: push onto an existing
bucket, or create the bucket at the end (JavaScript object key order). -/
def addToGroup (key : String) (t : Task) : List (String × List Task) → List (String × List Task)
  | [] => [(key, [t])]
  | (k, l) :: rest =>
    if k = key then (k, l ++ [t]) :: rest else (k, l) :: addToGroup key t rest

/-- The bucket key of `BaseStorage.applyGrouping`:
`String(task.fields[groupBy]?.value || "ungrouped")` — a missing field or
any falsy value (false, 0, null, the empty string) collapses to the
sentinel, any other value is stringified. -/
def gkey (groupBy : String) (t : Task) : String :=
  match (t.fields.lookup groupBy).map (fun f => f.value) with
  | none => "ungrouped"
  | some v => if v.truthy then v.jsToString else "ungrouped"

/-- `BaseStorage.applyGrouping` (also invoked verbatim by both SQL
adapters on their paginated results). -/
def applyGrouping (tasks : List Task) (groupBy : String) : List (String × List Task) :=
  tasks.foldl (fun groups t => addToGroup (gkey groupBy t) t groups) []

/-- The status gate of `BaseStorage.queryTasks`: an explicit status set is
used verbatim, `includeCompleted` admits all four statuses, and the
default is `active` and `backlog`. -/
def queryStatusFilter (q : TaskQuery) : List TaskStatus :=
  match q.status with
  | some s => s
  | none =>
    if q.includeCompleted then [.active, .backlog, .completed, .canceled]
    else [.active, .backlog]

/-- The status gate followed by the filter step of
`BaseStorage.queryTasks` — everything that determines which tasks
match, before sorting and pagination. -/
def baseMatching (env : TimeEnv) (allTasks : List Task) (q : TaskQuery) : List Task :=
  let statusFilter := queryStatusFilter q
  let tasks := allTasks.filter (fun t => statusFilter.contains t.status)
  match q.filters with
  | some fs => if fs.length ≠ 0 then applyFilters env tasks fs else tasks
  | none => tasks

/-- `BaseStorage.queryTasks` on an already-loaded task list (the method
calls `loadAllTasks(true)` and then works in memory): status gate,
filters, optional sort, total before pagination, offset, limit, optional
grouping.  A sort or groupBy equal to the empty string is falsy in the
source and skipped. -/
def baseQueryTasks (env : TimeEnv) (allTasks : List Task) (q : TaskQuery) : TaskQueryResult :=
  let tasks := baseMatching env allTasks q
  let tasks :=
    match q.sort with
    | some f => if f = "" then tasks else applySorting tasks f
    | none => tasks
  let total := tasks.length
  let tasks :=
    match q.offset with
    | some o => tasks.drop o
    | none => tasks
  let tasks :=
    match q.limit with
    | some l => tasks.take l
    | none => tasks
  let grouped :=
    match q.groupBy with
    | some g => if g = "" then none else some (applyGrouping tasks g)
    | none => none
  { tasks := tasks, total := total, grouped := grouped }

/-- `BaseStorage.countTasks` on a loaded task list: with a query it
re-runs `queryTasks` with pagination stripped and returns its `total`;
without one it returns the number of ids in the index. -/
def baseCountTasks (env : TimeEnv) (allTasks : List Task) (allIds : List String) :
    Option TaskQuery → Nat
  | none => allIds.length
  | some q => (baseQueryTasks env allTasks { q with limit := none, offset := none }).total

/-! ### Flat-file adapter (`src/storage/file.ts`) -/

/-- The observable state of a `FileStorage` directory: one JSON document
per task in `tasks/` and in `tasks/archive/` (keyed by the file name,
i.e. the id the document was saved under), plus the `tasks` array of the
singleton index document.  JSON serialization round-trips a `Task`
unchanged, so documents are stored structurally. -/
structure FileStore where
  files : List (String × Task)
  archive : List (String × Task)
  indexTasks : List String
deriving DecidableEq, Repr

/-- `FileStorage.saveTask`: overwrite `tasks/<id>.json`. -/
def fileSaveTask (store : FileStore) (t : Task) : FileStore :=
  { store with files := putAssoc t.id t store.files }

/-- `FileStorage.migrateTask`.  Documents written by `saveTask` always
carry a status (the source's inference branch only concerns legacy
documents with no status field, which this model cannot represent), so
the migration reduces to re-deriving `completed` from `status`. -/
def migrateTask (t : Task) : Task :=
  { t with completed := t.status = .completed }

/-- `FileStorage.loadTask`: check the active directory, then the
archive; parsed documents pass through `migrateTask`. -/
def fileLoadTask (store : FileStore) (id : String) : Option Task :=
  match store.files.lookup id with
  | some t => some (migrateTask t)
  | none => (store.archive.lookup id).map migrateTask

/-- `FileStorage.deleteTask`: unlink the active document and drop the id
from the index — no other task's document is touched. -/
def fileDeleteTask (store : FileStore) (id : String) : Bool × FileStore :=
  if (store.files.lookup id).isSome then
    (true,
      { files := eraseKey id store.files
        archive := store.archive
        indexTasks := store.indexTasks.filter (fun i => i ≠ id) })
  else
    (false, store)

/-- `FileStorage.archiveTask`: write the document into the archive
directory and unlink the active copy. -/
def fileArchiveTask (store : FileStore) (t : Task) : FileStore :=
  { files := eraseKey t.id store.files
    archive := putAssoc t.id t store.archive
    indexTasks := store.indexTasks }

/-- `FileStorage.loadAllTasks`: walk the index, load each task, and keep
completed/canceled ones only when `includeCompleted` is set. -/
def fileLoadAllTasks (store : FileStore) (includeCompleted : Bool) : List Task :=
  (store.indexTasks.filterMap (fileLoadTask store)).filter
    (fun t => includeCompleted || (t.status ≠ .completed && t.status ≠ .canceled))

/-- `FileStorage.getAllTaskIds`: the index's id list. -/
def fileGetAllTaskIds (store : FileStore) : List String :=
  store.indexTasks

/-- `BaseStorage.findTaskByPrefix` as inherited by the file backend:
filter all ids by `startsWith`, load on exactly one match, `null`
otherwise. -/
def fileFindTaskByPrefix (store : FileStore) (pre : String) : Option Task :=
  let ms := (fileGetAllTaskIds store).filter (fun id => strStartsWith id pre)
  if ms.length = 1 then fileLoadTask store (ms.headD "") else none

/-- `BaseStorage.queryTasks` as inherited by the file backend: the
in-memory pipeline over `loadAllTasks(true)`. -/
def fileQueryTasks (env : TimeEnv) (store : FileStore) (q : TaskQuery) : TaskQueryResult :=
  baseQueryTasks env (fileLoadAllTasks store true) q

/-- `BaseStorage.countTasks` as inherited by the file backend. -/
def fileCountTasks (env : TimeEnv) (store : FileStore) (q : Option TaskQuery) : Nat :=
  baseCountTasks env (fileLoadAllTasks store true) (fileGetAllTaskIds store) q

/-! ### Application-layer delete flow

`server/router.ts` (the `delete` mutation) and the CLI's `deleteTask`
helper perform the relationship cleanup around `storage.deleteTask`,
with identical logic; embedded here over the file backend. -/

/-- One iteration of the first cleanup loop: load the task stored under
`id` and, when its `blockedBy` contains the deleted id, save it back with
that id filtered out. -/
def stripBlockedByStep (deletedId : String) (store : FileStore) (id : String) : FileStore :=
  match fileLoadTask store id with
  | none => store
  | some t =>
    match t.blockedBy with
    | none => store
    | some l =>
      if deletedId ∈ l then
        fileSaveTask store { t with blockedBy := some (l.filter (fun b => b ≠ deletedId)) }
      else store

/-- One iteration of the second cleanup loop (over the deleted task's
`blocks` list): any loaded task with a `blockedBy` array — even an empty
one, which is truthy in JavaScript — is saved back with the deleted id
filtered out. -/
def stripBlocksTargetStep (deletedId : String) (store : FileStore) (id : String) : FileStore :=
  match fileLoadTask store id with
  | none => store
  | some t =>
    match t.blockedBy with
    | none => store
    | some l =>
      fileSaveTask store { t with blockedBy := some (l.filter (fun b => b ≠ deletedId)) }

/-- The application-layer delete flow: resolve the prefix, drop the id
from the index, strip the id from every indexed task's `blockedBy`, strip
it from the `blockedBy` of each task the deleted task blocks, then call
the storage-level delete and save the filtered index. -/
def appDeleteTask (store : FileStore) (inputId : String) : Option Task × FileStore :=
  match fileFindTaskByPrefix store inputId with
  | none => (none, store)
  | some task =>
    let newIndex := store.indexTasks.filter (fun i => i ≠ task.id)
    let store1 := newIndex.foldl (stripBlockedByStep task.id) store
    let store2 :=
      match task.blocks with
      | some bs => bs.foldl (stripBlocksTargetStep task.id) store1
      | none => store1
    let store3 := (fileDeleteTask store2 task.id).2
    (some task, { store3 with indexTasks := newIndex })

/-! ### Relational adapters (`src/storage/sqlite.ts` and the
`PostgresStorage` class)

Both adapters share the relational shape `tasks` + `task_fields` and the
same query translation; they differ in `LIKE` case folding (SQLite's
default `LIKE` is ASCII-case-insensitive, PostgreSQL's is
case-sensitive), in NULL placement when sorting ascending, and in
whether deleting a task row cascades to its `task_fields` rows
(PostgreSQL enforces the `ON DELETE CASCADE` foreign key; better-sqlite3
leaves foreign keys off by default). -/

/-- One row of the `tasks` table.  `fields` is the JSON blob column,
kept structurally since `JSON.parse ∘ JSON.stringify` is the identity on
it. -/
structure TaskRow where
  id : String
  raw : String
  created : String
  updated : String
  completed : Bool
  completionInfo : Option String
  fields : List (String × SemanticField)
  blocks : Option (List String)
  blockedBy : Option (List String)
  parent : Option String
  subtasks : Option (List String)
  recurrence : Option String
  templateId : Option String
  archived : Bool
deriving DecidableEq, Repr

/-- One row of the `task_fields` side table. -/
structure SideRow where
  taskId : String
  fieldName : String
  fieldValue : String
  normalizedValue : String
deriving DecidableEq, Repr

/-- The observable state of a relational backend: the `tasks` table, the
`task_fields` table, and the `tasks` array of the singleton
`task_index` row. -/
structure SQLStore where
  rows : List TaskRow
  sideRows : List SideRow
  indexTasks : List String
deriving DecidableEq, Repr

/-- The `field_value` column written by `saveTask`:
`Array.isArray(v) ? v.join(",") : String(v ?? "")` — arrays join with a
comma and `null` becomes the empty string via the nullish fallback. -/
def sqlFieldValue : JSValue → String
  | .vArr xs => String.intercalate "," xs
  | .vNull => ""
  | v => v.jsToString

/-- The `normalized_value` column: `field.normalized || value`, falling
back to the computed field value when `normalized` is missing or empty. -/
def sqlNormalizedValue (f : SemanticField) : String :=
  let value := sqlFieldValue f.value
  match f.normalized with
  | some s => if s = "" then value else s
  | none => s!"{value}"

/-- `task.parent || null` on write and `row.parent || undefined` on read:
the empty string is falsy and collapses to NULL/undefined. -/
def jsOrNoneStr : Option String → Option String
  | some s => if s = "" then none else some s
  | none => none

/-- The `tasks` row written by `saveTask` in both SQL adapters: every
column from the task, except that `archived` is the literal `false`. -/
def sqlTaskToRow (t : Task) : TaskRow :=
  { id := t.id
    raw := t.raw
    created := t.created
    updated := t.updated
    completed := t.completed
    completionInfo := t.completionInfo
    fields := t.fields
    blocks := t.blocks
    blockedBy := t.blockedBy
    parent := jsOrNoneStr t.parent
    subtasks := t.subtasks
    recurrence := t.recurrence
    templateId := jsOrNoneStr t.templateId
    archived := false }

/-- Upsert of a `tasks` row keyed by the primary key. -/
def putRow (r : TaskRow) : List TaskRow → List TaskRow
  | [] => [r]
  | r' :: rest => if r'.id = r.id then r :: rest else r' :: putRow r rest

/-- `saveTask` in both SQL adapters: upsert the task row (with
`archived = false`), then delete and re-insert its `task_fields`
projection, one side row per semantic field. -/
def sqlSaveTask (store : SQLStore) (t : Task) : SQLStore :=
  { rows := putRow (sqlTaskToRow t) store.rows
    sideRows :=
      store.sideRows.filter (fun s => s.taskId ≠ t.id) ++
        t.fields.map (fun p =>
          { taskId := t.id
            fieldName := p.1
            fieldValue := sqlFieldValue p.2.value
            normalizedValue := sqlNormalizedValue p.2 })
    indexTasks := store.indexTasks }

/-- `rowToTask` in both SQL adapters.  The `tasks` table has no status
column; the status is re-derived from the `completed` flag alone
(`completed` or `backlog`), and `canceledInfo` is not restored. -/
def sqlRowToTask (r : TaskRow) : Task :=
  { id := r.id
    raw := r.raw
    created := r.created
    updated := r.updated
    status := if r.completed then .completed else .backlog
    completed := r.completed
    completionInfo := r.completionInfo
    canceledInfo := none
    fields := r.fields
    blocks := r.blocks
    blockedBy := r.blockedBy
    parent := jsOrNoneStr r.parent
    subtasks := r.subtasks
    recurrence := r.recurrence
    templateId := jsOrNoneStr r.templateId }

/-- `loadTask`: `SELECT * FROM tasks WHERE id = ?`. -/
def sqlLoadTask (store : SQLStore) (id : String) : Option Task :=
  (store.rows.find? (fun r => r.id = id)).map sqlRowToTask

/-- Character comparison used by `LIKE`: case-insensitive when `ci`. -/
def likeCmp (ci : Bool) (a b : Char) : Bool :=
  if ci then a.toLower = b.toLower else a = b

/-- SQL `LIKE` pattern matching over character lists; `ci` selects
ASCII-case-insensitive comparison (SQLite's default `LIKE`; PostgreSQL's
is case-sensitive).  `%` matches any sequence — the rest of the pattern
must match some suffix — and `_` matches exactly one character. -/
def likeMatchL (ci : Bool) : List Char → List Char → Bool
  | [], s => s.isEmpty
  | p :: ps, s =>
    if p = '%' then s.tails.any (fun suf => likeMatchL ci ps suf)
    else if p = '_' then
      match s with
      | [] => false
      | _ :: ds => likeMatchL ci ps ds
    else
      match s with
      | [] => false
      | d :: ds => likeCmp ci p d && likeMatchL ci ps ds

/-- `id LIKE '<prefix>%'`. -/
def likePrefix (ci : Bool) (pre id : String) : Bool :=
  likeMatchL ci (pre.toList ++ ['%']) id.toList

/-- `findTaskByPrefix` in both SQL adapters:
`SELECT * FROM tasks WHERE id LIKE ? AND archived = 0` with the pattern
`prefix%`, returning the row only when exactly one matches. -/
def sqlFindTaskByPrefix (ci : Bool) (store : SQLStore) (pre : String) : Option Task :=
  match store.rows.filter (fun r => likePrefix ci pre r.id && !r.archived) with
  | [r] => some (sqlRowToTask r)
  | _ => none

/-- `SQLiteStorage.findTaskByPrefix` (case-insensitive `LIKE`). -/
def sqliteFindTaskByPrefix (store : SQLStore) (pre : String) : Option Task :=
  sqlFindTaskByPrefix true store pre

/-- `PostgresStorage.findTaskByPrefix` (case-sensitive `LIKE`). -/
def pgFindTaskByPrefix (store : SQLStore) (pre : String) : Option Task :=
  sqlFindTaskByPrefix false store pre

/-- `deleteTask` in both SQL adapters: delete the row and filter the id
out of the index; `cascade` reflects whether `task_fields` rows go with
it (true for PostgreSQL, false for SQLite, where the foreign-key pragma
is never enabled).  No other task row is modified. -/
def sqlDeleteTask (cascade : Bool) (store : SQLStore) (id : String) : Bool × SQLStore :=
  if store.rows.any (fun r => r.id = id) then
    (true,
      { rows := store.rows.filter (fun r => r.id ≠ id)
        sideRows :=
          if cascade then store.sideRows.filter (fun s => s.taskId ≠ id) else store.sideRows
        indexTasks := store.indexTasks.filter (fun i => i ≠ id) })
  else
    (false, store)

/-- `archiveTask` in both SQL adapters: flip the `archived` flag in
place. -/
def sqlArchiveTask (store : SQLStore) (id : String) : SQLStore :=
  { store with
    rows := store.rows.map (fun r => if r.id = id then { r with archived := true } else r) }

/-- `getAllTaskIds` in both SQL adapters:
`SELECT id FROM tasks WHERE archived = 0`. -/
def sqlGetAllTaskIds (store : SQLStore) : List String :=
  (store.rows.filter (fun r => !r.archived)).map (·.id)

/-- `loadAllTasks` in both SQL adapters: non-archived rows, restricted to
`completed = 0` unless `includeCompleted` is set.  (PostgreSQL adds
`ORDER BY created DESC`; only membership is used here.) -/
def sqlLoadAllTasks (store : SQLStore) (includeCompleted : Bool) : List Task :=
  ((store.rows.filter (fun r => !r.archived && (includeCompleted || !r.completed))).map
    sqlRowToTask)

/-- The single `task_fields` row joined for a given task and field name
(`LEFT JOIN task_fields f ON t.id = f.task_id AND f.field_name = ?`; the
composite primary key makes the join at most one row). -/
def sideLookup (store : SQLStore) (taskId fieldName : String) : Option SideRow :=
  store.sideRows.find? (fun s => s.taskId = taskId && s.fieldName = fieldName)

/-- One translated filter condition of the SQL `queryTasks`.  As in the
in-memory implementation, the deadline branch tests `value === "today"`
first, so the `op = lt` overdue comparison that follows it in the source
is unreachable; it is kept verbatim.  A NULL column (no joined side row)
fails every comparison.  `contains`/`startswith` build `LIKE` patterns
from the filter value; they are embedded as substring/prefix tests on the
case-folded strings, exact for values without `LIKE` wildcards. -/
def sqlFilterCond (env : TimeEnv) (store : SQLStore) (r : TaskRow) (f : TaskFilter) : Bool :=
  if f.field = "deadline" then
    let side := sideLookup store r.id "deadline"
    if f.value = "today" then
      match side with
      | some s => take10 s.fieldValue = env.today
      | none => false
    else if f.value = "this_week" then
      match side with
      | some s =>
        jsStrLe env.weekStart (take10 s.fieldValue) &&
          jsStrLe (take10 s.fieldValue) env.weekEnd
      | none => false
    else if f.op = .lt && f.value = "today" then
      match side with
      | some s => jsStrLt (take10 s.fieldValue) env.today
      | none => false
    else
      match side with
      | some s => s.fieldValue = f.value
      | none => false
  else if f.field = "completed" then
    r.completed = (f.value = "true")
  else
    let side := sideLookup store r.id f.field
    match f.op with
    | .eq =>
      match side with
      | some s => lowerStr s.normalizedValue = lowerStr f.value
      | none => false
    | .contains =>
      match side with
      | some s => strContainsSub (lowerStr s.normalizedValue) (lowerStr f.value)
      | none => false
    | .startswith =>
      match side with
      | some s => strStartsWith (lowerStr s.normalizedValue) (lowerStr f.value)
      | none => false
    | .gt =>
      match side with
      | some s => jsStrLt f.value s.normalizedValue
      | none => false
    | .lt =>
      match side with
      | some s => jsStrLt s.normalizedValue f.value
      | none => false
    | .existsF => side.isSome
    | .notExists => side.isNone

/-- The WHERE clause of the SQL `queryTasks`: `archived = 0`, then
`completed = 0` unless `includeCompleted`, then every translated filter.
The caller's `status` list is never consulted. -/
def sqlQueryGate (env : TimeEnv) (store : SQLStore) (q : TaskQuery) (r : TaskRow) : Bool :=
  !r.archived && (q.includeCompleted || !r.completed) &&
    (match q.filters with
     | some fs => fs.all (sqlFilterCond env store r)
     | none => true)

/-- Ascending comparison on the scalar sort subquery's result, with NULL
rows placed per `nullsFirst` (SQLite sorts NULL first ascending,
PostgreSQL last). -/
def optValLe (nullsFirst : Bool) : Option String → Option String → Bool
  | none, none => true
  | none, some _ => nullsFirst
  | some _, none => !nullsFirst
  | some a, some b => jsStrLe a b

/-- `queryTasks` in both SQL adapters (`nullsFirst` distinguishes the
dialects' ascending NULL placement): gate, sort (`ORDER BY` the sort
field's `normalized_value` ascending when `query.sort` is truthy,
`created DESC` otherwise), `COUNT(DISTINCT t.id)` over the same gate for
the total, `LIMIT`/`OFFSET`, then rows to tasks and the shared in-memory
grouping. -/
def sqlQueryTasks (nullsFirst : Bool) (env : TimeEnv) (store : SQLStore) (q : TaskQuery) :
    TaskQueryResult :=
  let matched := store.rows.filter (sqlQueryGate env store q)
  let sorted :=
    match q.sort with
    | some f =>
      if f = "" then stableSortBy (fun (a b : TaskRow) => jsStrLe b.created a.created) matched
      else
        stableSortBy (fun (a b : TaskRow) =>
          optValLe nullsFirst
            (Option.map (fun (s : SideRow) => s.normalizedValue) (sideLookup store a.id f))
            (Option.map (fun (s : SideRow) => s.normalizedValue) (sideLookup store b.id f)))
          matched
    | none => stableSortBy (fun (a b : TaskRow) => jsStrLe b.created a.created) matched
  let total := matched.length
  let paged :=
    match q.offset with
    | some o => sorted.drop o
    | none => sorted
  let paged :=
    match q.limit with
    | some l => paged.take l
    | none => paged
  let tasks := paged.map sqlRowToTask
  let grouped :=
    match q.groupBy with
    | some g => if g = "" then none else some (applyGrouping tasks g)
    | none => none
  { tasks := tasks, total := total, grouped := grouped }

/-- `SQLiteStorage.queryTasks`. -/
def sqliteQueryTasks (env : TimeEnv) (store : SQLStore) (q : TaskQuery) : TaskQueryResult :=
  sqlQueryTasks true env store q

/-- `PostgresStorage.queryTasks`. -/
def pgQueryTasks (env : TimeEnv) (store : SQLStore) (q : TaskQuery) : TaskQueryResult :=
  sqlQueryTasks false env store q

/-- `BaseStorage.countTasks` as inherited by the SQL adapters: it
re-invokes the adapter's own `queryTasks` with pagination stripped. -/
def sqlCountTasks (nullsFirst : Bool) (env : TimeEnv) (store : SQLStore) :
    Option TaskQuery → Nat
  | none => (sqlGetAllTaskIds store).length
  | some q => (sqlQueryTasks nullsFirst env store { q with limit := none, offset := none }).total

/-! ### Schema evolution (`addFieldToSchema` in the semantic extraction
module; the server's `schemaRouter.addField` applies the same
canonical-name collision test) -/

/-- A schema field definition.  The `type`/`category` string unions are
kept as strings; `enumVals` embeds the `enum` property. -/
structure FieldDefinition where
  type : String
  description : String
  examples : Option (List String) := none
  enumVals : Option (List String) := none
  aliases : Option (List String) := none
  category : Option String := none
deriving DecidableEq, Repr

/-- `Partial<FieldDefinition>`: every property optional. -/
structure FieldDefPatch where
  type : Option String := none
  description : Option String := none
  examples : Option (List String) := none
  enumVals : Option (List String) := none
  aliases : Option (List String) := none
  category : Option String := none
deriving DecidableEq, Repr

/-- The versioned schema; only the parts `addFieldToSchema` touches are
modelled (`lastUpdated` is stamped by `saveSchema`, not here). -/
structure TaskSchema where
  version : Nat
  fields : List (String × FieldDefinition)
deriving DecidableEq, Repr

/-- `s.replace(/\s+/g, "_")` worker: the flag records whether the
previous character belonged to a whitespace run (each maximal run emits
a single underscore). -/
def wsCollapse : Bool → List Char → List Char
  | _, [] => []
  | inRun, c :: cs =>
    if c.isWhitespace then
      if inRun then wsCollapse true cs else '_' :: wsCollapse true cs
    else c :: wsCollapse false cs

/-- `s.replace(/\s+/g, "_")`: each maximal whitespace run becomes one
underscore. -/
def wsRunsToUnderscore (l : List Char) : List Char := wsCollapse false l

/-- `name.toLowerCase().replace(/\s+/g, "_")`. -/
def normalizeFieldName (name : String) : String :=
  String.mk (wsRunsToUnderscore ((lowerStr name).toList))

/-- `definition.type || "string"` and friends: empty strings are falsy. -/
def orDefault (o : Option String) (dflt : String) : String :=
  match o with
  | some s => if s = "" then dflt else s
  | none => dflt

/-- `addFieldToSchema`: reject when the normalized name is already a
canonical field name (alias lists are **not** consulted); on acceptance
install the field with defaulted type/description, category `custom`,
and bump the version by one.  The in-place mutation is modelled by
returning the updated schema next to the success flag. -/
def addFieldToSchema (schema : TaskSchema) (name : String) (d : FieldDefPatch) :
    Bool × TaskSchema :=
  let normalizedName := normalizeFieldName name
  if (schema.fields.lookup normalizedName).isSome then
    (false, schema)
  else
    (true,
      { version := schema.version + 1
        fields :=
          putAssoc normalizedName
            { type := orDefault d.type "string"
              description := orDefault d.description ("Custom field: " ++ normalizedName)
              examples := d.examples
              enumVals := d.enumVals
              aliases := d.aliases
              category := some "custom" }
            schema.fields })

/-- All alias strings appearing in a schema's field definitions (used to
state the claim's collision clause, not by the implementation). -/
def schemaAliases (schema : TaskSchema) : List String :=
  schema.fields.flatMap (fun p => (p.2.aliases).getD [])

/-! ### Definitions taken from the spec's words (for refinement
comparison only, never from the source) -/

/-- Modelled from the spec: the claimed default ordering of
`queryTasks` — "ascending by deadline (tasks without a deadline sort
last) then descending by creation time". -/
def specDefaultOrder (tasks : List Task) : List Task :=
  stableSortBy (fun a b =>
    let da := (a.fields.lookup "deadline").map (fun f => f.value.jsToString)
    let db := (b.fields.lookup "deadline").map (fun f => f.value.jsToString)
    match da, db with
    | none, none => jsStrLe b.created a.created
    | none, some _ => false
    | some _, none => true
    | some x, some y =>
      if x = y then jsStrLe b.created a.created else jsStrLt x y)
    tasks

/-- A prefix containing no `LIKE` wildcard characters. -/
def noLikeWildcards (p : String) : Bool :=
  p.toList.all (fun c => c ≠ '%' && c ≠ '_')

/-! ### Order lemmas for the embedded string comparison -/

theorem strLtL_le_trans (a b c : List Char) :
    strLtL b a = false → strLtL c b = false → strLtL c a = false := by
  induction a generalizing b c with
  | nil => intro h1 h2; cases c <;> simp [strLtL]
  | cons y ys ih =>
    intro h1 h2
    cases c with
    | nil =>
      cases b with
      | nil => exact h1
      | cons z zs => simp [strLtL] at h2
    | cons x xs =>
      cases b with
      | nil => simp [strLtL] at h1
      | cons z zs =>
        simp only [strLtL] at h1 h2 ⊢
        by_cases hzy : z.toNat < y.toNat
        · simp [hzy] at h1
        · by_cases hxz : x.toNat < z.toNat
          · simp [hxz] at h2
          · by_cases hxy : x.toNat < y.toNat
            · omega
            · rw [if_neg hxy]
              by_cases hyx : y.toNat < x.toNat
              · simp [hyx]
              · rw [if_neg hyx]
                rw [if_neg hzy] at h1
                rw [if_neg hxz] at h2
                by_cases hyz : y.toNat < z.toNat
                · omega
                · by_cases hzx : z.toNat < x.toNat
                  · omega
                  · rw [if_neg hyz] at h1
                    rw [if_neg hzx] at h2
                    exact ih zs xs h1 h2

theorem strLtL_asymm (a b : List Char) : strLtL a b = true → strLtL b a = false := by
  induction a generalizing b with
  | nil =>
    intro h
    cases b with
    | nil => exact absurd h (by simp [strLtL])
    | cons z zs => simp [strLtL]
  | cons y ys ih =>
    intro h
    cases b with
    | nil => simp [strLtL] at h
    | cons z zs =>
      simp only [strLtL] at h ⊢
      by_cases hyz : y.toNat < z.toNat
      · have hzy : ¬ z.toNat < y.toNat := by omega
        simp [hzy, hyz]
      · rw [if_neg hyz] at h
        by_cases hzy : z.toNat < y.toNat
        · simp [hzy] at h
        · rw [if_neg hzy] at h
          rw [if_neg hzy, if_neg hyz]
          exact ih zs h

theorem jsStrLe_trans {a b c : String} :
    jsStrLe a b = true → jsStrLe b c = true → jsStrLe a c = true := by
  intro h1 h2
  simp only [jsStrLe, jsStrLt, Bool.not_eq_true'] at h1 h2 ⊢
  exact strLtL_le_trans a.toList b.toList c.toList h1 h2

theorem jsStrLt_asymm (a b : String) : jsStrLt a b = true → jsStrLt b a = false :=
  fun h => strLtL_asymm _ _ h

theorem jsStrLe_total (a b : String) : (jsStrLe a b || jsStrLe b a) = true := by
  simp only [jsStrLe]
  cases h : jsStrLt b a with
  | false => simp
  | true => simp [jsStrLt_asymm _ _ h]

/-! ### Stable-sort lemmas -/

theorem stableInsert_perm {α : Type} (le : α → α → Bool) (a : α) (l : List α) :
    (stableInsert le a l).Perm (a :: l) := by
  induction l with
  | nil => exact List.Perm.refl _
  | cons b l ih =>
    simp only [stableInsert]
    split
    · exact (ih.cons b).trans (List.Perm.swap a b l)
    · exact List.Perm.refl _

theorem stableSortBy_perm {α : Type} (le : α → α → Bool) (l : List α) :
    (stableSortBy le l).Perm l := by
  have key : ∀ (l acc : List α),
      (l.foldl (fun acc a => stableInsert le a acc) acc).Perm (acc ++ l) := by
    intro l
    induction l with
    | nil => intro acc; simp
    | cons a l ih =>
      intro acc
      refine (ih (stableInsert le a acc)).trans ?_
      refine (List.Perm.append_right l (stableInsert_perm le a acc)).trans ?_
      exact (@List.perm_middle _ a acc l).symm
  simpa using key l []

theorem stableSortBy_length {α : Type} (le : α → α → Bool) (l : List α) :
    (stableSortBy le l).length = l.length :=
  (stableSortBy_perm le l).length_eq

theorem mem_stableSortBy {α : Type} {le : α → α → Bool} {l : List α} {x : α} :
    x ∈ stableSortBy le l ↔ x ∈ l :=
  (stableSortBy_perm le l).mem_iff

theorem stableInsert_pairwise {α : Type} (le : α → α → Bool)
    (htrans : ∀ a b c, le a b = true → le b c = true → le a c = true)
    (htotal : ∀ a b, (le a b || le b a) = true)
    (a : α) {l : List α} (h : l.Pairwise (fun x y => le x y = true)) :
    (stableInsert le a l).Pairwise (fun x y => le x y = true) := by
  induction l with
  | nil => simp [stableInsert]
  | cons b l ih =>
    rw [List.pairwise_cons] at h
    obtain ⟨hb, hl⟩ := h
    simp only [stableInsert]
    split
    · rename_i hba
      rw [List.pairwise_cons]
      refine ⟨?_, ih hl⟩
      intro x hx
      rcases List.mem_cons.mp ((stableInsert_perm le a l).mem_iff.mp hx) with hxa | hxl
      · exact hxa ▸ hba
      · exact hb x hxl
    · rename_i hba
      have hab : le a b = true := by
        have := htotal a b
        simp only [Bool.or_eq_true] at this
        rcases this with h' | h'
        · exact h'
        · exact absurd h' (by simpa using hba)
      rw [List.pairwise_cons]
      constructor
      · intro x hx
        rcases List.mem_cons.mp hx with hxb | hxl
        · exact hxb ▸ hab
        · exact htrans a b x hab (hb x hxl)
      · exact List.pairwise_cons.mpr ⟨hb, hl⟩

theorem stableSortBy_pairwise {α : Type} (le : α → α → Bool)
    (htrans : ∀ a b c, le a b = true → le b c = true → le a c = true)
    (htotal : ∀ a b, (le a b || le b a) = true) (l : List α) :
    (stableSortBy le l).Pairwise (fun x y => le x y = true) := by
  have key : ∀ (l acc : List α), acc.Pairwise (fun x y => le x y = true) →
      (l.foldl (fun acc a => stableInsert le a acc) acc).Pairwise
        (fun x y => le x y = true) := by
    intro l
    induction l with
    | nil => intro acc h; simpa using h
    | cons a l ih =>
      intro acc h
      exact ih _ (stableInsert_pairwise le htrans htotal a h)
  exact key l [] (by simp)

/-! ### Association-list lemmas -/

theorem lookup_putAssoc {α : Type} (k : String) (v : α) (l : List (String × α)) (id : String) :
    (putAssoc k v l).lookup id = if id = k then some v else l.lookup id := by
  induction l with
  | nil =>
    by_cases h : id = k
    · simp [putAssoc, List.lookup, beq_iff_eq, h]
    · have hb : (id == k) = false := beq_eq_false_iff_ne.mpr h
      simp [putAssoc, List.lookup, hb, h]
  | cons p l ih =>
    obtain ⟨k', v'⟩ := p
    simp only [putAssoc]
    by_cases hk : k' = k
    · rw [if_pos hk]
      by_cases h : id = k
      · have hb : (id == k) = true := beq_iff_eq.mpr h
        simp [List.lookup, hb, h]
      · have hb : (id == k) = false := beq_eq_false_iff_ne.mpr h
        have hb2 : (id == k') = false := beq_eq_false_iff_ne.mpr (fun hc => h (hc.trans hk))
        simp [List.lookup, hb, hb2, h]
    · rw [if_neg hk]
      by_cases h : id = k'
      · have hik : ¬ id = k := fun hc => hk (by rw [← h]; exact hc)
        have hb : (id == k') = true := beq_iff_eq.mpr h
        simp [List.lookup, hb, hik]
      · have hb : (id == k') = false := beq_eq_false_iff_ne.mpr h
        simp [List.lookup, hb, ih]

/-! ### Grouping lemmas -/

/-- Some bucket of `groups` contains `t`. -/
def GContains (groups : List (String × List Task)) (t : Task) : Prop :=
  ∃ k l, (k, l) ∈ groups ∧ t ∈ l

/-- Every member of every bucket has that bucket's key. -/
def GInv (g : String) (groups : List (String × List Task)) : Prop :=
  ∀ p ∈ groups, ∀ u ∈ p.2, p.1 = gkey g u

theorem gContains_addToGroup_self (k : String) (t : Task) :
    ∀ groups, GContains (addToGroup k t groups) t := by
  intro groups
  induction groups with
  | nil => exact ⟨k, [t], List.mem_singleton_self _, List.mem_singleton_self _⟩
  | cons p rest ih =>
    obtain ⟨k', l'⟩ := p
    simp only [addToGroup]
    split
    · exact ⟨k', l' ++ [t], List.mem_cons_self _ _, List.mem_append_right _ (List.mem_singleton_self _)⟩
    · obtain ⟨k2, l2, hm, ht⟩ := ih
      exact ⟨k2, l2, List.mem_cons_of_mem _ hm, ht⟩

theorem gContains_addToGroup_mono {u : Task} (k : String) (t : Task) :
    ∀ {groups}, GContains groups u → GContains (addToGroup k t groups) u := by
  intro groups
  induction groups with
  | nil => rintro ⟨k2, l2, hm, _⟩; exact absurd hm (List.not_mem_nil _)
  | cons p rest ih =>
    rintro ⟨k2, l2, hm, hu⟩
    obtain ⟨k', l'⟩ := p
    simp only [addToGroup]
    split
    · rcases List.mem_cons.mp hm with hm | hm
      · have hl : l2 = l' := congrArg Prod.snd hm
        exact ⟨k', l' ++ [t], List.mem_cons_self _ _,
          List.mem_append_left _ (hl ▸ hu)⟩
      · exact ⟨k2, l2, List.mem_cons_of_mem _ hm, hu⟩
    · rcases List.mem_cons.mp hm with hm | hm
      · exact ⟨k2, l2, hm ▸ List.mem_cons_self _ _, hu⟩
      · obtain ⟨k3, l3, hm3, hu3⟩ := ih ⟨k2, l2, hm, hu⟩
        exact ⟨k3, l3, List.mem_cons_of_mem _ hm3, hu3⟩

theorem gInv_addToGroup {g : String} {t : Task} :
    ∀ {groups}, GInv g groups → GInv g (addToGroup (gkey g t) t groups) := by
  intro groups
  induction groups with
  | nil =>
    intro _ p hp u hu
    rcases List.mem_singleton.mp hp with rfl
    rcases List.mem_singleton.mp hu with rfl
    rfl
  | cons q rest ih =>
    intro hinv
    obtain ⟨k', l'⟩ := q
    have hq := hinv (k', l') (List.mem_cons_self _ _)
    have hrest : GInv g rest := fun p hp => hinv p (List.mem_cons_of_mem _ hp)
    simp only [addToGroup]
    split
    · rename_i heq
      intro p hp u hu
      rcases List.mem_cons.mp hp with rfl | hp
      · rcases List.mem_append.mp hu with hu | hu
        · exact hq u hu
        · rcases List.mem_singleton.mp hu with rfl
          exact heq
      · exact hinv p (List.mem_cons_of_mem _ hp) u hu
    · intro p hp u hu
      rcases List.mem_cons.mp hp with rfl | hp
      · exact hq u hu
      · exact ih hrest p hp u hu

theorem applyGrouping_spec (g : String) (ts : List Task) :
    GInv g (applyGrouping ts g) ∧ ∀ t ∈ ts, GContains (applyGrouping ts g) t := by
  have key : ∀ (ts : List Task) (acc : List (String × List Task)), GInv g acc →
      GInv g (ts.foldl (fun groups t => addToGroup (gkey g t) t groups) acc) ∧
      (∀ u, GContains acc u →
        GContains (ts.foldl (fun groups t => addToGroup (gkey g t) t groups) acc) u) ∧
      (∀ t ∈ ts, GContains (ts.foldl (fun groups t => addToGroup (gkey g t) t groups) acc) t) := by
    intro ts
    induction ts with
    | nil =>
      intro acc h
      exact ⟨h, fun u hu => hu, fun t ht => absurd ht (List.not_mem_nil _)⟩
    | cons t ts ih =>
      intro acc h
      have h1 : GInv g (addToGroup (gkey g t) t acc) := gInv_addToGroup h
      obtain ⟨ha, hb, hc⟩ := ih (addToGroup (gkey g t) t acc) h1
      refine ⟨ha, ?_, ?_⟩
      · intro u hu
        exact hb u (gContains_addToGroup_mono _ _ hu)
      · intro u hu
        rcases List.mem_cons.mp hu with rfl | hu
        · exact hb u (gContains_addToGroup_self _ _ _)
        · exact hc u hu
  obtain ⟨ha, _, hc⟩ := key ts [] (fun p hp => absurd hp (List.not_mem_nil _))
  exact ⟨ha, hc⟩

/-! ### Row-upsert lemmas -/

theorem find?_putRow (r : TaskRow) (rows : List TaskRow) :
    (putRow r rows).find? (fun x => x.id = r.id) = some r := by
  induction rows with
  | nil => simp [putRow, List.find?]
  | cons r' rest ih =>
    simp only [putRow]
    split
    · simp [List.find?]
    · rename_i h
      have hd : (decide (r'.id = r.id)) = false := by simpa using h
      simp [List.find?, hd, ih]

theorem mem_putRow_self (r : TaskRow) (rows : List TaskRow) : r ∈ putRow r rows := by
  induction rows with
  | nil => exact List.mem_singleton_self _
  | cons r' rest ih =>
    simp only [putRow]
    split
    · exact List.mem_cons_self _ _
    · exact List.mem_cons_of_mem _ ih

theorem mem_putRow {x r : TaskRow} : ∀ {rows : List TaskRow}, x ∈ putRow r rows → x = r ∨ x ∈ rows := by
  intro rows
  induction rows with
  | nil => intro h; simpa [putRow] using h
  | cons r' rest ih =>
    intro h
    simp only [putRow] at h
    split at h
    · rcases List.mem_cons.mp h with h | h
      · exact Or.inl h
      · exact Or.inr (List.mem_cons_of_mem _ h)
    · rcases List.mem_cons.mp h with h | h
      · exact Or.inr (h ▸ List.mem_cons_self _ _)
      · rcases ih h with h2 | h2
        · exact Or.inl h2
        · exact Or.inr (List.mem_cons_of_mem _ h2)

theorem mem_putAssoc {α : Type} {p : String × α} {k : String} {v : α} :
    ∀ {l : List (String × α)}, p ∈ putAssoc k v l → p = (k, v) ∨ p ∈ l := by
  intro l
  induction l with
  | nil => intro h; simpa [putAssoc] using h
  | cons q l ih =>
    intro h
    simp only [putAssoc] at h
    split at h
    · rcases List.mem_cons.mp h with h | h
      · exact Or.inl h
      · exact Or.inr (List.mem_cons_of_mem _ h)
    · rcases List.mem_cons.mp h with h | h
      · exact Or.inr (h ▸ List.mem_cons_self _ _)
      · rcases ih h with h2 | h2
        · exact Or.inl h2
        · exact Or.inr (List.mem_cons_of_mem _ h2)

/-! ### LIKE-pattern lemmas -/

theorem likeMatchL_pct_nil (ci : Bool) (s : List Char) : likeMatchL ci ['%'] s = true := by
  induction s with
  | nil => rfl
  | cons c cs ih =>
    simp only [likeMatchL, List.tails_cons, List.any_cons] at ih ⊢
    simp only [if_true] at ih ⊢
    simp only [Bool.or_eq_true]
    exact Or.inr ih

/-- Comparison-parameterised prefix test. -/
def isPrefixOfBy (cmp : Char → Char → Bool) : List Char → List Char → Bool
  | [], _ => true
  | _ :: _, [] => false
  | p :: ps, c :: cs => cmp p c && isPrefixOfBy cmp ps cs

theorem likeMatchL_wildcardFree (ci : Bool) :
    ∀ (p : List Char), (∀ c ∈ p, ¬(c = '%') ∧ ¬(c = '_')) → ∀ s,
      likeMatchL ci (p ++ ['%']) s = isPrefixOfBy (likeCmp ci) p s := by
  intro p
  induction p with
  | nil =>
    intro _ s
    simpa [isPrefixOfBy] using likeMatchL_pct_nil ci s
  | cons c cs ih =>
    intro hp s
    have hc := hp c (List.mem_cons_self _ _)
    simp only [List.cons_append, likeMatchL, if_neg hc.1, if_neg hc.2]
    cases s with
    | nil => simp [isPrefixOfBy]
    | cons d ds =>
      simp [isPrefixOfBy, ih (fun x hx => hp x (List.mem_cons_of_mem _ hx)) ds]

theorem isPrefixOfBy_eq_isPrefixOf : ∀ (p s : List Char),
    isPrefixOfBy (likeCmp false) p s = p.isPrefixOf s
  | [], s => by simp [isPrefixOfBy, List.isPrefixOf]
  | c :: cs, [] => by simp [isPrefixOfBy, List.isPrefixOf]
  | c :: cs, d :: ds => by
    by_cases h : c = d
    · have hb : (c == d) = true := beq_iff_eq.mpr h
      simp [isPrefixOfBy, List.isPrefixOf, likeCmp, h, hb, isPrefixOfBy_eq_isPrefixOf cs ds]
    · have hb : (c == d) = false := beq_eq_false_iff_ne.mpr h
      simp [isPrefixOfBy, List.isPrefixOf, likeCmp, h, hb]

/-- For prefixes without `LIKE` wildcards, PostgreSQL's case-sensitive
`id LIKE '<prefix>%'` is exactly `id.startsWith(prefix)`. -/
theorem likePrefix_eq_startsWith (p id : String) (hp : noLikeWildcards p = true) :
    likePrefix false p id = strStartsWith id p := by
  have hp' : ∀ c ∈ p.toList, ¬(c = '%') ∧ ¬(c = '_') := by
    intro c hc
    have := List.all_eq_true.mp hp c hc
    simp only [Bool.and_eq_true, decide_eq_true_eq] at this
    exact ⟨by simpa using this.1, by simpa using this.2⟩
  rw [likePrefix, likeMatchL_wildcardFree false p.toList hp' id.toList,
    isPrefixOfBy_eq_isPrefixOf, strStartsWith]

theorem mem_tails_self : ∀ l : List Char, l ∈ l.tails
  | [] => by simp
  | a :: l => by simp [List.tails_cons]

/-- Every id matches its own `LIKE '<id>%'` pattern. -/
theorem likePrefix_self (ci : Bool) (s : String) : likePrefix ci s s = true := by
  rw [likePrefix]
  have key : ∀ l : List Char, likeMatchL ci (l ++ ['%']) l = true := by
    intro l
    induction l with
    | nil => simpa using likeMatchL_pct_nil ci []
    | cons c cs ih =>
      simp only [List.cons_append, likeMatchL]
      by_cases hc : c = '%'
      · rw [if_pos hc]
        refine List.any_eq_true.mpr ⟨cs, ?_, ih⟩
        rw [List.tails_cons]
        exact List.mem_cons_of_mem _ (mem_tails_self cs)
      · rw [if_neg hc]
        by_cases hu : c = '_'
        · rw [if_pos hu]
          exact ih
        · rw [if_neg hu]
          simp [likeCmp, ih]
  exact key s.toList

theorem lookup_some_mem {α : Type} {l : List (String × α)} {k : String} {v : α} :
    l.lookup k = some v → (k, v) ∈ l := by
  induction l with
  | nil => intro h; simp [List.lookup] at h
  | cons p l ih =>
    obtain ⟨k', v'⟩ := p
    intro h
    by_cases hk : k = k'
    · have hb : (k == k') = true := beq_iff_eq.mpr hk
      simp only [List.lookup, hb] at h
      have hv : v' = v := Option.some.inj h
      exact List.mem_cons.mpr (Or.inl (by rw [hk, ← hv]))
    · have hb : (k == k') = false := beq_eq_false_iff_ne.mpr hk
      simp only [List.lookup, hb] at h
      exact List.mem_cons_of_mem _ (ih h)

theorem lookup_eraseKey {α : Type} (x id : String) (h : id ≠ x) (l : List (String × α)) :
    (eraseKey x l).lookup id = l.lookup id := by
  induction l with
  | nil => rfl
  | cons p l ih =>
    obtain ⟨k, v⟩ := p
    simp only [eraseKey]
    by_cases hk : k = x
    · rw [if_pos hk, ih]
      have hb : (id == k) = false := beq_eq_false_iff_ne.mpr (fun hc => h (hc.trans hk))
      simp [List.lookup, hb]
    · rw [if_neg hk]
      by_cases h2 : id = k
      · have hb : (id == k) = true := beq_iff_eq.mpr h2
        simp [List.lookup, hb]
      · have hb : (id == k) = false := beq_eq_false_iff_ne.mpr h2
        simp [List.lookup, hb, ih]

/-! ### File-store well-formedness and delete-cleanup lemmas -/

/-- Each document is stored under its own task id — true of every store
produced by `saveTask`/`archiveTask`, which key documents by `task.id`. -/
def WFFileStore (store : FileStore) : Prop :=
  (∀ p ∈ store.files, p.2.id = p.1) ∧ (∀ p ∈ store.archive, p.2.id = p.1)

theorem fileLoadTask_fileSaveTask (store : FileStore) (t : Task) (id : String) :
    fileLoadTask (fileSaveTask store t) id =
      if id = t.id then some (migrateTask t) else fileLoadTask store id := by
  simp only [fileLoadTask, fileSaveTask, lookup_putAssoc]
  by_cases h : id = t.id <;> simp [h]

theorem fileLoadTask_id {store : FileStore} (hwf : WFFileStore store) {j : String} {t : Task}
    (h : fileLoadTask store j = some t) : t.id = j := by
  unfold fileLoadTask at h
  cases hf : store.files.lookup j with
  | some d =>
    rw [hf] at h
    have hd : migrateTask d = t := Option.some.inj h
    have := hwf.1 (j, d) (lookup_some_mem hf)
    rw [← hd]
    simpa [migrateTask] using this
  | none =>
    rw [hf] at h
    cases ha : store.archive.lookup j with
    | none => rw [ha] at h; exact absurd h (by simp)
    | some d =>
      rw [ha] at h
      have hd : migrateTask d = t := Option.some.inj (by simpa using h)
      have := hwf.2 (j, d) (lookup_some_mem ha)
      rw [← hd]
      simpa [migrateTask] using this

theorem wf_fileSaveTask {store : FileStore} (h : WFFileStore store) (t : Task) :
    WFFileStore (fileSaveTask store t) := by
  refine ⟨?_, h.2⟩
  intro p hp
  rcases mem_putAssoc hp with rfl | hp
  · rfl
  · exact h.1 p hp

theorem stripBlockedByStep_eq (aid : String) (store : FileStore) (j : String) :
    stripBlockedByStep aid store j = store ∨
    ∃ t l, fileLoadTask store j = some t ∧ t.blockedBy = some l ∧ aid ∈ l ∧
      stripBlockedByStep aid store j =
        fileSaveTask store { t with blockedBy := some (l.filter (fun b => b ≠ aid)) } := by
  unfold stripBlockedByStep
  cases h : fileLoadTask store j with
  | none => exact Or.inl rfl
  | some t =>
    dsimp only
    cases hb : t.blockedBy with
    | none => exact Or.inl rfl
    | some l =>
      dsimp only
      by_cases hc : aid ∈ l
      · exact Or.inr ⟨t, l, rfl, hb, hc, by rw [if_pos hc]⟩
      · exact Or.inl (by rw [if_neg hc])

theorem stripBlocksTargetStep_eq (aid : String) (store : FileStore) (j : String) :
    stripBlocksTargetStep aid store j = store ∨
    ∃ t l, fileLoadTask store j = some t ∧ t.blockedBy = some l ∧
      stripBlocksTargetStep aid store j =
        fileSaveTask store { t with blockedBy := some (l.filter (fun b => b ≠ aid)) } := by
  unfold stripBlocksTargetStep
  cases h : fileLoadTask store j with
  | none => exact Or.inl rfl
  | some t =>
    dsimp only
    cases hb : t.blockedBy with
    | none => exact Or.inl rfl
    | some l => exact Or.inr ⟨t, l, rfl, hb, rfl⟩

/-- No remaining task loadable under `id` still references `aid` in its
`blockedBy` set. -/
def cleanAt (aid : String) (store : FileStore) (id : String) : Prop :=
  ∀ t, fileLoadTask store id = some t → aid ∉ t.blockedBy.getD []

theorem cleanAt_save_stripped {aid : String} {store : FileStore} {i : String}
    (h : cleanAt aid store i) (t : Task) (l : List String) :
    cleanAt aid
      (fileSaveTask store { t with blockedBy := some (l.filter (fun b => b ≠ aid)) }) i := by
  intro u hu
  rw [fileLoadTask_fileSaveTask] at hu
  split at hu
  · have := Option.some.inj hu
    rw [← this]
    simp [migrateTask]
  · exact h u hu

theorem cleanAt_stripBlockedByStep {aid : String} {store : FileStore} {i : String}
    (h : cleanAt aid store i) (j : String) :
    cleanAt aid (stripBlockedByStep aid store j) i := by
  rcases stripBlockedByStep_eq aid store j with heq | ⟨t, l, _, _, _, heq⟩ <;> rw [heq]
  · exact h
  · exact cleanAt_save_stripped h t l

theorem cleanAt_stripBlocksTargetStep {aid : String} {store : FileStore} {i : String}
    (h : cleanAt aid store i) (j : String) :
    cleanAt aid (stripBlocksTargetStep aid store j) i := by
  rcases stripBlocksTargetStep_eq aid store j with heq | ⟨t, l, _, _, heq⟩ <;> rw [heq]
  · exact h
  · exact cleanAt_save_stripped h t l

theorem wf_stripBlockedByStep {store : FileStore} (hwf : WFFileStore store)
    (aid j : String) : WFFileStore (stripBlockedByStep aid store j) := by
  rcases stripBlockedByStep_eq aid store j with heq | ⟨t, l, _, _, _, heq⟩ <;> rw [heq]
  · exact hwf
  · exact wf_fileSaveTask hwf _

theorem cleanAt_stripBlockedByStep_self {aid : String} {store : FileStore}
    (hwf : WFFileStore store) (j : String) :
    cleanAt aid (stripBlockedByStep aid store j) j := by
  unfold stripBlockedByStep
  cases h : fileLoadTask store j with
  | none =>
    intro u hu
    rw [h] at hu
    exact absurd hu (by simp)
  | some t =>
    dsimp only
    cases hb : t.blockedBy with
    | none =>
      intro u hu
      rw [h] at hu
      have := Option.some.inj hu
      rw [← this, hb]
      simp
    | some l =>
      dsimp only
      by_cases hc : aid ∈ l
      · rw [if_pos hc]
        intro u hu
        rw [fileLoadTask_fileSaveTask] at hu
        have htid : t.id = j := fileLoadTask_id hwf h
        have hcond : j = ({ t with blockedBy := some (l.filter (fun b => b ≠ aid)) } : Task).id := by
          simp [← htid]
        rw [if_pos hcond] at hu
        have := Option.some.inj hu
        rw [← this]
        simp [migrateTask]
      · rw [if_neg hc]
        intro u hu
        rw [h] at hu
        have := Option.some.inj hu
        rw [← this, hb]
        simpa using hc

theorem foldl_stripBlockedBy_clean {aid : String} :
    ∀ (ids : List String) (store : FileStore), WFFileStore store →
      WFFileStore (ids.foldl (stripBlockedByStep aid) store) ∧
      (∀ i, cleanAt aid store i → cleanAt aid (ids.foldl (stripBlockedByStep aid) store) i) ∧
      (∀ i ∈ ids, cleanAt aid (ids.foldl (stripBlockedByStep aid) store) i) := by
  intro ids
  induction ids with
  | nil =>
    intro store hwf
    exact ⟨hwf, fun i h => h, fun i hi => absurd hi (List.not_mem_nil _)⟩
  | cons j ids ih =>
    intro store hwf
    have hwf1 : WFFileStore (stripBlockedByStep aid store j) :=
      wf_stripBlockedByStep hwf aid j
    obtain ⟨ha, hb, hc⟩ := ih (stripBlockedByStep aid store j) hwf1
    refine ⟨ha, ?_, ?_⟩
    · intro i h
      exact hb i (cleanAt_stripBlockedByStep h j)
    · intro i hi
      rcases List.mem_cons.mp hi with rfl | hi
      · exact hb i (cleanAt_stripBlockedByStep_self hwf i)
      · exact hc i hi

theorem foldl_stripBlocksTarget_clean {aid : String} :
    ∀ (ids : List String) (store : FileStore) (i : String), cleanAt aid store i →
      cleanAt aid (ids.foldl (stripBlocksTargetStep aid) store) i := by
  intro ids
  induction ids with
  | nil => intro store i h; exact h
  | cons j ids ih =>
    intro store i h
    exact ih (stripBlocksTargetStep aid store j) i (cleanAt_stripBlocksTargetStep h j)

theorem cleanAt_fileDeleteTask {aid : String} {store : FileStore} {i x : String}
    (hne : i ≠ x) (h : cleanAt aid store i) :
    cleanAt aid (fileDeleteTask store x).2 i := by
  unfold fileDeleteTask
  split
  · intro u hu
    apply h u
    unfold fileLoadTask at hu ⊢
    rw [lookup_eraseKey x i hne] at hu
    exact hu
  · exact h

/-! ### Concrete fixtures for the claim-level evaluations -/

/-- A concrete clock: 2026-10-11 (a Sunday), noon. -/
def env0 : TimeEnv :=
  { today := "2026-10-11"
    weekStart := "2026-10-11"
    weekEnd := "2026-10-17"
    beforeNow := fun s => jsStrLt s "2026-10-11T12:00:00" }

/-- A minimal consistent task. -/
def mkTask (id : String) (st : TaskStatus) (created : String) : Task :=
  { id := id
    raw := id
    created := created
    updated := created
    status := st
    completed := st = .completed }

/-- A task with a single `deadline` field. -/
def mkDeadlineTask (id : String) (created deadline : String) : Task :=
  { mkTask id .active created with
    fields := [("deadline", { name := "deadline", value := .vStr deadline })] }

def emptySQLStore : SQLStore := { rows := [], sideRows := [], indexTasks := [] }

def storeC2 : SQLStore :=
  sqlSaveTask
    (sqlSaveTask
      (sqlSaveTask (sqlSaveTask emptySQLStore (mkTask "a1" .active "2026-01-04"))
        (mkTask "b1" .backlog "2026-01-03"))
      (mkTask "c1" .completed "2026-01-02"))
    (mkTask "d1" .canceled "2026-01-01")

/-- The same four fixture tasks as `storeC2`, as the flat-file backend's
loaded task list. -/
def taskListC2 : List Task :=
  [mkTask "a1" .active "2026-01-04", mkTask "b1" .backlog "2026-01-03",
    mkTask "c1" .completed "2026-01-02", mkTask "d1" .canceled "2026-01-01"]

/-! ### Claim-level theorems -/

/-- Claim C1 (code-bug evidence): the SQL adapters do not persist the
status.  Saving a task with status `active` (hence `completed = false`)
into an empty SQLite/PostgreSQL store and loading it back yields the
task with its status collapsed to `backlog` — `rowToTask` re-derives the
status from the `completed` flag alone, so the round-trip is not the
identity that the spec's round-trip property demands. -/
theorem C1_sql_roundTrip_drops_active_status :
    (mkTask "a1" TaskStatus.active "2026-01-01").status = TaskStatus.active ∧
    sqlLoadTask (sqlSaveTask emptySQLStore (mkTask "a1" TaskStatus.active "2026-01-01")) "a1" =
      some { mkTask "a1" TaskStatus.active "2026-01-01" with status := TaskStatus.backlog } := by
  exact ⟨by decide, by decide⟩

/-- Claim C2 (code-bug evidence): the SQL adapters ignore the caller's
explicit status set.  With unarchived fixture tasks of all four statuses,
`queryTasks({status: ["canceled"]})` on the SQLite adapter returns the
active, backlog and canceled tasks (its gate is only
`archived = 0 AND completed = 0`), and `queryTasks({})` returns the same
three — including the canceled task — instead of only active and
backlog; the default in-memory implementation honours both, as the last
two conjuncts show. -/
theorem C2_sql_ignores_status_filter :
    ((sqliteQueryTasks env0 storeC2 { status := some [TaskStatus.canceled] }).tasks.map
      (fun t => t.id)) = ["a1", "b1", "d1"] ∧
    ((sqliteQueryTasks env0 storeC2 {}).tasks.map (fun t => t.id)) = ["a1", "b1", "d1"] ∧
    ((baseQueryTasks env0 taskListC2 { status := some [TaskStatus.canceled] }).tasks.map
      (fun t => t.id)) = ["d1"] ∧
    ((baseQueryTasks env0 taskListC2 {}).tasks.map (fun t => t.id)) = ["a1", "b1"] := by
  exact ⟨by decide, by decide, by decide, by decide⟩

/-- Tasks A and B with A blocking B, stored in a flat-file store. -/
def taskA3 : Task := { mkTask "aa1" .active "2026-01-01" with blocks := some ["bb1"] }

def taskB3 : Task := { mkTask "bb1" .active "2026-01-02" with blockedBy := some ["aa1"] }

def storeC3 : FileStore :=
  { files := [("aa1", taskA3), ("bb1", taskB3)]
    archive := []
    indexTasks := ["aa1", "bb1"] }

/-- Claim C3 (counterexample): the storage-level `deleteTask` performs no
relationship cleanup.  With A blocking B, `FileStorage.deleteTask(A.id)`
returns the success flag but B's `blockedBy` still contains A's id. -/
theorem C3_storage_delete_leaves_dangling_reference :
    (fileDeleteTask storeC3 "aa1").1 = true ∧
    ((fileLoadTask (fileDeleteTask storeC3 "aa1").2 "bb1").map
      (fun t => (t.blockedBy.getD []).contains "aa1")) = some true := by
  exact ⟨by decide, by decide⟩

/-- Claim C3 (amended): the cascading cleanup lives one layer up, in the
application-level delete flow (the server's `delete` mutation and the
CLI helper, identical logic).  After `appDeleteTask` succeeds on a
well-formed store, no task loadable under a remaining index id still
carries the deleted task's id in its `blockedBy` set.  (Only `blockedBy`
is cleaned; `blocks` sets are not touched by any layer.) -/
theorem C3_app_delete_cleans_blockedBy (store : FileStore) (inputId : String) (task : Task)
    (store' : FileStore) (hwf : WFFileStore store)
    (hdel : appDeleteTask store inputId = (some task, store'))
    (id : String) (hid : id ∈ store'.indexTasks) (t : Task)
    (hload : fileLoadTask store' id = some t) :
    task.id ∉ t.blockedBy.getD [] := by
  unfold appDeleteTask at hdel
  cases hfind : fileFindTaskByPrefix store inputId with
  | none => rw [hfind] at hdel; exact absurd (congrArg Prod.fst hdel) (by simp)
  | some task0 =>
    rw [hfind] at hdel
    dsimp only at hdel
    have htask : task0 = task := by
      have := congrArg Prod.fst hdel
      simpa using this
    subst htask
    have hstore := congrArg Prod.snd hdel
    dsimp only at hstore
    set newIndex := store.indexTasks.filter (fun i => i ≠ task0.id) with hni
    set store1 := newIndex.foldl (stripBlockedByStep task0.id) store with hs1
    set store2 :=
      (match task0.blocks with
        | some bs => bs.foldl (stripBlocksTargetStep task0.id) store1
        | none => store1) with hs2
    set store3 := (fileDeleteTask store2 task0.id).2 with hs3
    obtain ⟨hwf1, _, hestab⟩ := foldl_stripBlockedBy_clean newIndex store hwf
    have hidx : id ∈ newIndex := by
      rw [← hstore] at hid
      exact hid
    have hne : id ≠ task0.id := by
      have := List.mem_filter.mp hidx
      simpa using this.2
    have h1 : cleanAt task0.id store1 id := hestab id hidx
    have h2 : cleanAt task0.id store2 id := by
      rw [hs2]
      cases task0.blocks with
      | none => exact h1
      | some bs => exact foldl_stripBlocksTarget_clean bs store1 id h1
    have h3 : cleanAt task0.id store3 id := cleanAt_fileDeleteTask hne h2
    have hload3 : fileLoadTask store3 id = some t := by
      rw [← hstore] at hload
      exact hload
    exact h3 t hload3

/-- Witness store for the amended C3: the A-blocks-B fixture. -/
def taskB3stripped : Task :=
  { taskB3 with blockedBy := some [] }

theorem C3_app_delete_cleans_blockedBy_witness :
    "aa1" ∉ (migrateTask taskB3stripped).blockedBy.getD [] :=
  C3_app_delete_cleans_blockedBy storeC3 "aa1" taskA3 (appDeleteTask storeC3 "aa1").2
    (by constructor <;> decide) (by decide) "bb1" (by decide)
    (migrateTask taskB3stripped) (by decide)

/-- Schema fixture: the canonical field `subject` lists `project` among
its aliases (as `DEFAULT_SCHEMA` does). -/
def schemaC4 : TaskSchema :=
  { version := 3
    fields := [("subject",
      { type := "string"
        description := "The project, system, or area this task relates to"
        aliases := some ["project"] })] }

/-- Claim C4 (counterexample): a proposed field name that collides with
an existing field's alias list is **not** rejected — `addFieldToSchema`
only tests canonical names, so adding `project` (an alias of `subject`)
succeeds and bumps the version, where the claim demands rejection with
the schema unchanged. -/
theorem C4_alias_collision_accepted :
    "project" ∈ schemaAliases schemaC4 ∧
    (addFieldToSchema schemaC4 "project" {}).1 = true ∧
    (addFieldToSchema schemaC4 "project" {}).2.version = schemaC4.version + 1 := by
  exact ⟨by decide, by decide, by decide⟩

/-- Claim C4 (amended): the collision test is on canonical field names
only.  If the normalized name is already a canonical field, the addition
is rejected and the schema (version included) is returned unchanged;
otherwise the field is installed under the normalized name, every other
name maps as before, and the version grows by exactly one. -/
theorem C4_canonical_name_collision_only (schema : TaskSchema) (name : String)
    (d : FieldDefPatch) :
    ((schema.fields.lookup (normalizeFieldName name)).isSome = true →
      addFieldToSchema schema name d = (false, schema)) ∧
    ((schema.fields.lookup (normalizeFieldName name)).isSome = false →
      (addFieldToSchema schema name d).1 = true ∧
      (addFieldToSchema schema name d).2.version = schema.version + 1 ∧
      ((addFieldToSchema schema name d).2.fields.lookup (normalizeFieldName name)).isSome = true ∧
      ∀ k, k ≠ normalizeFieldName name →
        (addFieldToSchema schema name d).2.fields.lookup k = schema.fields.lookup k) := by
  constructor
  · intro h
    unfold addFieldToSchema
    rw [if_pos h]
  · intro h
    have h' : ¬ ((schema.fields.lookup (normalizeFieldName name)).isSome = true) := by
      simp [h]
    unfold addFieldToSchema
    rw [if_neg h']
    refine ⟨rfl, rfl, ?_, ?_⟩
    · simp [lookup_putAssoc]
    · intro k hk
      simp [lookup_putAssoc, hk]

theorem C4_canonical_name_collision_only_witness :
    addFieldToSchema schemaC4 "Subject" {} = (false, schemaC4) ∧
    (addFieldToSchema schemaC4 "due" {}).2.version = schemaC4.version + 1 :=
  ⟨(C4_canonical_name_collision_only schemaC4 "Subject" {}).1 (by decide),
   ((C4_canonical_name_collision_only schemaC4 "due" {}).2 (by decide)).2.1⟩

/-- SQLite fixture with the single task id `abc`. -/
def storeC5 : SQLStore := sqlSaveTask emptySQLStore (mkTask "abc" .active "2026-01-01")

/-- Claim C5 (counterexample): the SQL adapters resolve prefixes with
`id LIKE '<prefix>%'`, whose wildcards are live.  For the prefix `a_c`
no stored id starts with the prefix — the claim demands a not-found
result — yet the SQLite adapter returns the task `abc`, because `_`
matches any single character. -/
theorem C5_wildcard_prefix_matches_other_id :
    ((sqlGetAllTaskIds storeC5).filter (fun id => strStartsWith id "a_c")).length = 0 ∧
    sqliteFindTaskByPrefix storeC5 "a_c" =
      some (sqlRowToTask (sqlTaskToRow (mkTask "abc" .active "2026-01-01"))) := by
  exact ⟨by decide, by decide⟩

/-- Claim C5 (amended): for prefixes containing no `LIKE` wildcard
characters (`%`, `_`), every backend returns the unique match and
resolves zero or many matches to not-found, never an arbitrary match:
the default implementation filters all index ids by `startsWith`, the
PostgreSQL adapter's `LIKE` test coincides with `startsWith` over its
non-archived rows, and the SQLite adapter behaves the same up to its
`LIKE`'s ASCII case folding. -/
theorem C5_unique_prefix_or_none (fs : FileStore) (ss : SQLStore) (p : String)
    (hp : noLikeWildcards p = true) :
    ((fs.indexTasks.filter (fun id => strStartsWith id p)).length ≠ 1 →
      fileFindTaskByPrefix fs p = none) ∧
    (∀ m, fs.indexTasks.filter (fun id => strStartsWith id p) = [m] →
      fileFindTaskByPrefix fs p = fileLoadTask fs m) ∧
    ((ss.rows.filter (fun r => strStartsWith r.id p && !r.archived)).length ≠ 1 →
      pgFindTaskByPrefix ss p = none) ∧
    (∀ r, ss.rows.filter (fun r => strStartsWith r.id p && !r.archived) = [r] →
      pgFindTaskByPrefix ss p = some (sqlRowToTask r)) ∧
    ((ss.rows.filter (fun r => likePrefix true p r.id && !r.archived)).length ≠ 1 →
      sqliteFindTaskByPrefix ss p = none) ∧
    (∀ r, ss.rows.filter (fun r => likePrefix true p r.id && !r.archived) = [r] →
      sqliteFindTaskByPrefix ss p = some (sqlRowToTask r)) := by
  have hpg : ss.rows.filter (fun r => likePrefix false p r.id && !r.archived) =
      ss.rows.filter (fun r => strStartsWith r.id p && !r.archived) := by
    apply List.filter_congr
    intro r _
    rw [likePrefix_eq_startsWith p r.id hp]
  refine ⟨?_, ?_, ?_, ?_, ?_, ?_⟩
  · intro h
    simp only [fileFindTaskByPrefix, fileGetAllTaskIds]
    rw [if_neg h]
  · intro m hm
    simp only [fileFindTaskByPrefix, fileGetAllTaskIds]
    rw [hm]
    rfl
  · intro h
    unfold pgFindTaskByPrefix sqlFindTaskByPrefix
    rw [hpg]
    cases hl : ss.rows.filter (fun r => strStartsWith r.id p && !r.archived) with
    | nil => rfl
    | cons r rest =>
      cases rest with
      | nil => exact absurd (by rw [hl]; rfl) h
      | cons r2 rest2 => rfl
  · intro r hr
    unfold pgFindTaskByPrefix sqlFindTaskByPrefix
    rw [hpg, hr]
  · intro h
    unfold sqliteFindTaskByPrefix sqlFindTaskByPrefix
    cases hl : ss.rows.filter (fun r => likePrefix true p r.id && !r.archived) with
    | nil => rfl
    | cons r rest =>
      cases rest with
      | nil => exact absurd (by rw [hl]; rfl) h
      | cons r2 rest2 => rfl
  · intro r hr
    unfold sqliteFindTaskByPrefix sqlFindTaskByPrefix
    rw [hr]

/-- Witness file store for the amended C5 (two ids sharing the prefix
`a`). -/
def fsC5w : FileStore :=
  { files := [("aa1", taskA3), ("bb1", taskB3)]
    archive := []
    indexTasks := ["aa1", "ab1"] }

theorem C5_unique_prefix_or_none_witness :
    fileFindTaskByPrefix fsC5w "a" = none ∧
    sqliteFindTaskByPrefix storeC5 "A" =
      some (sqlRowToTask (sqlTaskToRow (mkTask "abc" .active "2026-01-01"))) :=
  ⟨(C5_unique_prefix_or_none fsC5w storeC5 "a" (by decide)).1 (by decide),
   (C5_unique_prefix_or_none fsC5w storeC5 "A" (by decide)).2.2.2.2.2 _ (by decide)⟩

/-- File fixture: `t61` has no deadline and the older creation time,
`t62` carries a deadline and a newer creation time. -/
def t61 : Task := mkTask "t61" .active "2026-01-01"

def t62 : Task := mkDeadlineTask "t62" "2026-02-01" "2026-06-01"

def storeC6 : FileStore :=
  { files := [("t61", t61), ("t62", t62)]
    archive := []
    indexTasks := ["t61", "t62"] }

/-- Claim C6 (counterexample): `queryTasks` applies no default
deadline-based ordering.  On the flat-file backend with no sort field
the tasks come back in index (load) order — the deadline-less `t61`
first — while the order the claim describes (deadline ascending, missing
deadlines last, creation descending) would put `t62` first. -/
theorem C6_no_default_deadline_sort :
    ((fileQueryTasks env0 storeC6 {}).tasks.map (fun t => t.id)) = ["t61", "t62"] ∧
    ((specDefaultOrder (fileQueryTasks env0 storeC6 {}).tasks).map (fun t => t.id)) =
      ["t62", "t61"] := by
  exact ⟨by decide, by decide⟩

/-- Claim C6 (amended): with a sort field the default implementation
returns the matching tasks stably sorted ascending by the field's string
value; without one it returns them untouched, in load order, and the
SQL adapters order by creation time descending.  No layer of
`queryTasks` implements the deadline-ascending default the spec
describes (it lives in the CLI's `listTasks`). -/
theorem C6_querySort_behavior (env : TimeEnv) (allTasks : List Task) (store : SQLStore)
    (q : TaskQuery) (f : String) (hf : f ≠ "") :
    ((baseQueryTasks env allTasks
        { q with sort := some f, limit := none, offset := none }).tasks).Pairwise
      (fun a b => jsStrLe (sortKey f a) (sortKey f b) = true) ∧
    ((baseQueryTasks env allTasks
        { q with sort := some f, limit := none, offset := none }).tasks).Perm
      (baseMatching env allTasks q) ∧
    ((baseQueryTasks env allTasks
        { q with sort := none, limit := none, offset := none }).tasks =
      baseMatching env allTasks q) ∧
    ((sqliteQueryTasks env store
        { q with sort := none, limit := none, offset := none }).tasks).Pairwise
      (fun a b => jsStrLe b.created a.created = true) ∧
    ((sqliteQueryTasks env store
        { q with sort := none, limit := none, offset := none }).tasks).Perm
      ((store.rows.filter (sqlQueryGate env store q)).map sqlRowToTask) := by
  have hbase : (baseQueryTasks env allTasks
      { q with sort := some f, limit := none, offset := none }).tasks =
      applySorting (baseMatching env allTasks q) f := by
    simp only [baseQueryTasks]
    rw [if_neg hf]
    rfl
  have hsql : (sqliteQueryTasks env store
      { q with sort := none, limit := none, offset := none }).tasks =
      (stableSortBy (fun (a b : TaskRow) => jsStrLe b.created a.created)
        (store.rows.filter (sqlQueryGate env store q))).map sqlRowToTask := rfl
  refine ⟨?_, ?_, rfl, ?_, ?_⟩
  · rw [hbase]
    exact stableSortBy_pairwise (fun a b => jsStrLe (sortKey f a) (sortKey f b))
      (fun a b c h1 h2 => jsStrLe_trans h1 h2)
      (fun a b => jsStrLe_total _ _) _
  · rw [hbase]
    exact stableSortBy_perm _ _
  · rw [hsql]
    rw [List.pairwise_map]
    exact stableSortBy_pairwise (fun (a b : TaskRow) => jsStrLe b.created a.created)
      (fun a b c h1 h2 => jsStrLe_trans h2 h1)
      (fun a b => jsStrLe_total _ _) _
  · rw [hsql]
    exact List.Perm.map _ (stableSortBy_perm _ _)

theorem C6_querySort_behavior_witness :
    ((baseQueryTasks env0 [t62, t61]
        { sort := some "deadline", limit := none, offset := none }).tasks).Pairwise
      (fun a b => jsStrLe (sortKey "deadline" a) (sortKey "deadline" b) = true) :=
  (C6_querySort_behavior env0 [t62, t61] emptySQLStore {} "deadline" (by decide)).1

/-- Overdue-filter fixtures: far-past, tomorrow, and today-with-time
deadlines. -/
def storeC7 : FileStore :=
  { files := [("x1", mkDeadlineTask "x1" "2026-01-05" "2020-01-01"),
      ("y1", mkDeadlineTask "y1" "2026-01-06" "2026-10-12"),
      ("w1", mkDeadlineTask "w1" "2026-01-07" "2026-10-11T09:00")]
    archive := []
    indexTasks := ["x1", "y1", "w1"] }

def storeC7sql : SQLStore :=
  sqlSaveTask
    (sqlSaveTask (sqlSaveTask emptySQLStore (mkDeadlineTask "x1" "2026-01-05" "2020-01-01"))
      (mkDeadlineTask "y1" "2026-01-06" "2026-10-12"))
    (mkDeadlineTask "w1" "2026-01-07" "2026-10-11T09:00")

/-- Claim C7 (code-bug evidence): the overdue branch is unreachable in
every translator — each checks `value === "today"` first, which consumes
any `(op: lt, value: "today")` filter.  The `isOverdue` helper agrees
with the claim (first three conjuncts: the 2020 deadline and today's
timed deadline are overdue at noon, tomorrow's is not), but the
in-memory `queryTasks` returns **no** tasks for the overdue filter
(the consumed branch yields `op === "eq" ? ... : false`), and the SQL
adapters turn it into date-equality with today, returning exactly the
today-dated task `w1` instead of the overdue `x1`. -/
theorem C7_overdue_filter_unreachable_branch :
    isOverdue env0 "2020-01-01" = true ∧
    isOverdue env0 "2026-10-11T09:00" = true ∧
    isOverdue env0 "2026-10-12" = false ∧
    (fileQueryTasks env0 storeC7
      { filters := some [{ field := "deadline", op := .lt, value := "today" }] }).tasks = [] ∧
    ((sqliteQueryTasks env0 storeC7sql
      { filters := some [{ field := "deadline", op := .lt, value := "today" }] }).tasks.map
        (fun t => t.id)) = ["w1"] := by
  exact ⟨by decide, by decide, by decide, by decide, by decide⟩

/-- Claim C8: in every backend the result's `total` counts the tasks
passing the status gate and filters before pagination, is unchanged by
`limit`/`offset`, and `countTasks(query)` (which re-runs `queryTasks`
with pagination stripped) returns the same number. -/
theorem C8_total_independent_of_pagination (env : TimeEnv) (allTasks : List Task)
    (allIds : List String) (store : SQLStore) (q : TaskQuery) :
    (baseQueryTasks env allTasks q).total = (baseMatching env allTasks q).length ∧
    (baseQueryTasks env allTasks q).total =
      (baseQueryTasks env allTasks { q with limit := none, offset := none }).total ∧
    baseCountTasks env allTasks allIds (some q) = (baseQueryTasks env allTasks q).total ∧
    (sqliteQueryTasks env store q).total =
      (store.rows.filter (sqlQueryGate env store q)).length ∧
    (sqliteQueryTasks env store q).total =
      (sqliteQueryTasks env store { q with limit := none, offset := none }).total ∧
    sqlCountTasks true env store (some q) = (sqliteQueryTasks env store q).total ∧
    (pgQueryTasks env store q).total =
      (pgQueryTasks env store { q with limit := none, offset := none }).total ∧
    sqlCountTasks false env store (some q) = (pgQueryTasks env store q).total := by
  have hbase : ∀ q' : TaskQuery, (baseQueryTasks env allTasks q').total =
      (baseMatching env allTasks q').length := by
    intro q'
    simp only [baseQueryTasks]
    cases hs : q'.sort with
    | none => rfl
    | some f =>
      dsimp only
      by_cases hf : f = ""
      · rw [if_pos hf]
      · rw [if_neg hf]
        exact stableSortBy_length _ _
  refine ⟨hbase q, ?_, ?_, rfl, rfl, rfl, rfl, rfl⟩
  · rw [hbase q, hbase { q with limit := none, offset := none }]
    rfl
  · show (baseQueryTasks env allTasks { q with limit := none, offset := none }).total =
      (baseQueryTasks env allTasks q).total
    rw [hbase q, hbase { q with limit := none, offset := none }]
    rfl

/-- SQLite fixture whose only row (`abc`) is archived. -/
def storeC9 : SQLStore := sqlArchiveTask storeC5 "abc"

/-- Claim C9: `saveTask` in both SQL adapters writes the `archived`
column as the literal false.  Saving a task whose stored row is
currently archived returns it to the primary area: its row is
unarchived and its id shows up again in `getAllTaskIds`,
`loadAllTasks`, both adapters' `queryTasks` results, and (when it is
the unique `LIKE` match) `findTaskByPrefix`. -/
theorem C9_saveTask_unarchives (env : TimeEnv) (store : SQLStore) (t : Task)
    (harch : ((store.rows.find? (fun r => r.id = t.id)).map (fun r => r.archived)) =
      some true) :
    (((sqlSaveTask store t).rows.find? (fun r => r.id = t.id)).map (fun r => r.archived) =
      some false) ∧
    t.id ∈ sqlGetAllTaskIds (sqlSaveTask store t) ∧
    t.id ∈ (sqlLoadAllTasks (sqlSaveTask store t) true).map (fun x => x.id) ∧
    t.id ∈ ((sqliteQueryTasks env (sqlSaveTask store t)
      { includeCompleted := true }).tasks.map (fun x => x.id)) ∧
    t.id ∈ ((pgQueryTasks env (sqlSaveTask store t)
      { includeCompleted := true }).tasks.map (fun x => x.id)) ∧
    (((sqlSaveTask store t).rows.filter
        (fun r => likePrefix true t.id r.id && !r.archived)).length = 1 →
      sqliteFindTaskByPrefix (sqlSaveTask store t) t.id =
        some (sqlRowToTask (sqlTaskToRow t))) := by
  have hfind : List.find? (fun r => r.id = t.id) (putRow (sqlTaskToRow t) store.rows) =
      some (sqlTaskToRow t) := find?_putRow (sqlTaskToRow t) store.rows
  have hmemRow : sqlTaskToRow t ∈ (sqlSaveTask store t).rows :=
    mem_putRow_self (sqlTaskToRow t) store.rows
  refine ⟨?_, ?_, ?_, ?_, ?_, ?_⟩
  · show Option.map (fun r => r.archived)
      (List.find? (fun r => r.id = t.id) (putRow (sqlTaskToRow t) store.rows)) = some false
    rw [hfind]
    rfl
  · exact List.mem_map.mpr ⟨sqlTaskToRow t,
      List.mem_filter.mpr ⟨hmemRow, rfl⟩, rfl⟩
  · exact List.mem_map.mpr ⟨sqlRowToTask (sqlTaskToRow t),
      List.mem_map.mpr ⟨sqlTaskToRow t, List.mem_filter.mpr ⟨hmemRow, rfl⟩, rfl⟩, rfl⟩
  · exact List.mem_map.mpr ⟨sqlRowToTask (sqlTaskToRow t),
      List.mem_map.mpr ⟨sqlTaskToRow t,
        mem_stableSortBy.mpr (List.mem_filter.mpr ⟨hmemRow, rfl⟩), rfl⟩, rfl⟩
  · exact List.mem_map.mpr ⟨sqlRowToTask (sqlTaskToRow t),
      List.mem_map.mpr ⟨sqlTaskToRow t,
        mem_stableSortBy.mpr (List.mem_filter.mpr ⟨hmemRow, rfl⟩), rfl⟩, rfl⟩
  · intro h
    have hmemF : sqlTaskToRow t ∈ (sqlSaveTask store t).rows.filter
        (fun r => likePrefix true t.id r.id && !r.archived) := by
      apply List.mem_filter.mpr
      refine ⟨hmemRow, ?_⟩
      show (likePrefix true t.id t.id && !false) = true
      rw [likePrefix_self]
      rfl
    obtain ⟨a, ha⟩ := List.length_eq_one.mp h
    rw [ha] at hmemF
    have haeq : a = sqlTaskToRow t := (List.mem_singleton.mp hmemF).symm
    subst haeq
    unfold sqliteFindTaskByPrefix sqlFindTaskByPrefix
    rw [ha]

theorem C9_saveTask_unarchives_witness :
    "abc" ∈ sqlGetAllTaskIds (sqlSaveTask storeC9 (mkTask "abc" .active "2026-01-01")) :=
  (C9_saveTask_unarchives env0 storeC9 (mkTask "abc" .active "2026-01-01") (by decide)).2.1

/-- Claim C10: every backend groups through the shared `applyGrouping`,
and a task lands in the sentinel `ungrouped` bucket exactly when the
groupBy field is missing or its value is falsy under JavaScript coercion
(false, 0, null, the empty string); any other value buckets under its
stringified form.  Each task belongs to the bucket with its key and to
no bucket with a different key. -/
theorem C10_falsy_group_values_ungrouped (tasks : List Task) (g : String) (t : Task)
    (ht : t ∈ tasks) :
    (∃ l, (gkey g t, l) ∈ applyGrouping tasks g ∧ t ∈ l) ∧
    (∀ k l, (k, l) ∈ applyGrouping tasks g → t ∈ l → k = gkey g t) ∧
    (t.fields.lookup g = none → gkey g t = "ungrouped") ∧
    (∀ fld, t.fields.lookup g = some fld → fld.value.truthy = false →
      gkey g t = "ungrouped") ∧
    (∀ fld, t.fields.lookup g = some fld → fld.value.truthy = true →
      gkey g t = fld.value.jsToString) := by
  obtain ⟨hinv, hcont⟩ := applyGrouping_spec g tasks
  refine ⟨?_, ?_, ?_, ?_, ?_⟩
  · obtain ⟨k, l, hm, hl⟩ := hcont t ht
    have hk := hinv (k, l) hm t hl
    exact ⟨l, hk ▸ hm, hl⟩
  · intro k l hm hl
    exact hinv (k, l) hm t hl
  · intro h
    simp [gkey, h]
  · intro fld hf hv
    simp [gkey, hf, hv]
  · intro fld hf hv
    simp [gkey, hf, hv]

/-- Grouping witness fixtures: a truthy string priority and a falsy
boolean one. -/
def u1C10 : Task :=
  { mkTask "u1" .active "2026-01-01" with
    fields := [("priority", { name := "priority", value := .vStr "high" })] }

def u2C10 : Task :=
  { mkTask "u2" .active "2026-01-02" with
    fields := [("priority", { name := "priority", value := .vBool false })] }

theorem C10_falsy_group_values_ungrouped_witness :
    ∃ l, ("ungrouped", l) ∈ applyGrouping [u1C10, u2C10] "priority" ∧ u2C10 ∈ l :=
  (C10_falsy_group_values_ungrouped [u1C10, u2C10] "priority" u2C10 (by decide)).1

end Tx
